import Mathlib

/-!
# Verification of the dfs control-plane core

A shallow embedding, in Lean 4, of the metadata/control plane of the `dfs`
distributed block filesystem (Rust sources under `src/`), together with
theorems settling a list of claims about it.

Modelling conventions:
* `std::collections::HashMap<K, V>` is modelled as an association list
  `List (K × V)`; a `HashMap` never holds two entries with the same key, so
  theorems that depend on key uniqueness carry a `NodupKeys` hypothesis.
* `std::time::Instant` and `Duration` are modelled as `Nat` time stamps /
  spans; `Instant::duration_since` (saturating) is `Nat` subtraction.
* `Arc<str>` (block ids, store ids, path segments) is `String`; `&str`
  manipulation (`trim`, `split`) is modelled on the underlying `List Char`
  so that every definition reduces in the kernel.
* A Rust method taking `&mut self` and returning `Result<T, E>` is
  modelled either as `Except E State` (for methods that return the error
  before any mutation, so the error case leaves the caller's state
  untouched) or as `State × Except Unit E`-style pairs when a claim
  explicitly speaks about the state after a failure.
-/

namespace Dfs

/-! ## Association lists (the model of `HashMap`) -/

section AssocOps

variable {K V : Type} [DecidableEq K]

/-- `HashMap::get`: the value of the first entry with the given key. -/
def lookupKey (l : List (K × V)) (k : K) : Option V :=
  (l.find? (fun e => e.1 = k)).map (·.2)

/-- `HashMap::get_mut` followed by an in-place update: rewrite the value of
the (first) entry with the given key. -/
def modifyKey : List (K × V) → K → (V → V) → List (K × V)
  | [], _, _ => []
  | e :: rest, k, f =>
    if e.1 = k then (e.1, f e.2) :: rest else e :: modifyKey rest k f

/-- `HashMap::remove`: drop the (first) entry with the given key. -/
def eraseKey (l : List (K × V)) (k : K) : List (K × V) :=
  l.eraseP (fun e => e.1 = k)

/-- A `HashMap` never holds two entries with the same key. -/
def NodupKeys (l : List (K × V)) : Prop :=
  (l.map Prod.fst).Nodup

instance (l : List (K × V)) : Decidable (NodupKeys l) := by
  unfold NodupKeys; infer_instance

end AssocOps

/-! ## Path model (`src/fs/virt.rs`: `PathSplit`, `PathCursor`) -/

/-- Characterwise version of `str::trim` (both-ends whitespace removal),
matching what `path_str.trim()` and the per-segment `s.trim()` tests do in
`PathSplit::from_uri`. -/
def trimChars (l : List Char) : List Char :=
  ((l.dropWhile Char.isWhitespace).reverse.dropWhile Char.isWhitespace).reverse

/-- Characterwise version of `str::split(sep)`: the (possibly empty)
chunks between occurrences of the separator. -/
def splitChars (sep : Char) : List Char → List (List Char)
  | [] => [[]]
  | c :: cs =>
    if c = sep then [] :: splitChars sep cs
    else
      match splitChars sep cs with
      | [] => [[c]]
      | seg :: rest => (c :: seg) :: rest

/-- `PathSplit`: an ordered sequence of path segments (`Arc<[Arc<str>]>`). -/
structure PathSplit where
  segs : List String
deriving DecidableEq

/-- `PathSplit::from_uri`: trim the whole string, split on `'/'`, and keep
exactly the chunks whose own trim is non-empty (the chunks themselves are
kept untrimmed, as in the source: `.filter(|s| !s.trim().is_empty()).map(Arc::from)`). -/
def PathSplit.from_uri (path_str : String) : PathSplit :=
  ⟨((splitChars '/' (trimChars path_str.data)).filter
      (fun cs => !(trimChars cs).isEmpty)).map (fun cs => String.mk cs)⟩

/-- `PathCursor`: a position inside a `PathSplit`.  The source stores the
whole split plus an index `curr < segs.len()`; we represent the same data
by the current segment together with the remaining segments, which gives
the same `curr`/`next` observable behaviour and structural recursion. -/
structure PathCursor where
  curr : String
  rest : List String
deriving DecidableEq

/-- `PathCursor::new`: `None` iff the path has no segments. -/
def PathCursor.new (path_split : PathSplit) : Option PathCursor :=
  match path_split.segs with
  | [] => none
  | s :: rest => some ⟨s, rest⟩

/-- `PathCursor::next`: advance; `None` when the current segment is last. -/
def PathCursor.next (c : PathCursor) : Option PathCursor :=
  match c.rest with
  | [] => none
  | s :: rest => some ⟨s, rest⟩

/-! ## Open-file table (`src/fs/virt.rs`) -/

/-- `OpenFileAttribute`: writer flag, last-lease stamp, holder count. -/
structure OpenFileAttribute where
  write : Bool
  last_lease : Nat
  holders : Nat
deriving DecidableEq

/-- `OpenFileAttribute::new`. -/
def OpenFileAttribute.new (write : Bool) (now : Nat) : OpenFileAttribute :=
  ⟨write, now, 1⟩

/-- `OpenFileAttribute::read`: if the entry is write-held, do nothing;
otherwise add a holder. -/
def OpenFileAttribute.read (a : OpenFileAttribute) : OpenFileAttribute :=
  if a.write then a else { a with holders := a.holders + 1 }

/-- `OpenFileAttribute::lease`: refresh the last-lease stamp. -/
def OpenFileAttribute.lease (a : OpenFileAttribute) (now : Nat) : OpenFileAttribute :=
  { a with last_lease := now }

/-- `OpenFileAttribute::close`: `holders.saturating_sub(1)`. -/
def OpenFileAttribute.close (a : OpenFileAttribute) : OpenFileAttribute :=
  { a with holders := a.holders - 1 }

/-- `OpenFileAttribute::is_free`. -/
def OpenFileAttribute.is_free (a : OpenFileAttribute) : Bool :=
  a.holders = 0

/-- `OpenFileAttribute::is_timeout`: `ttl < now.duration_since(last_lease)`. -/
def OpenFileAttribute.is_timeout (a : OpenFileAttribute) (ttl now : Nat) : Bool :=
  ttl < now - a.last_lease

/-- `OpenExclusionError { path }`. -/
structure OpenExclusionError where
  path : PathSplit
deriving DecidableEq

/-- `LeaseNotFoundError`. -/
structure LeaseNotFoundError where
deriving DecidableEq

/-- `OpenFileTable`: per-path open-file attributes. -/
structure OpenFileTable where
  map : List (PathSplit × OpenFileAttribute)
deriving DecidableEq

/-- The empty table (`OpenFileTable::new`). -/
def OpenFileTable.new : OpenFileTable := ⟨[]⟩

/-- The table's `map.get(path)`. -/
def OpenFileTable.lookup (t : OpenFileTable) (p : PathSplit) : Option OpenFileAttribute :=
  lookupKey t.map p

/-- `OpenFileTable::open` (named `open'` because `open` is a Lean keyword):
reject when an entry exists and it is a writer or the request is a write;
otherwise insert a fresh attribute or bump the existing one via `read`. -/
def OpenFileTable.open' (t : OpenFileTable) (path : PathSplit) (write : Bool)
    (now : Nat) : Except OpenExclusionError OpenFileTable :=
  if (match t.lookup path with
      | some attr => attr.write || write
      | none => false) then
    .error ⟨path⟩
  else
    match t.lookup path with
    | none => .ok ⟨t.map ++ [(path, OpenFileAttribute.new write now)]⟩
    | some _ => .ok ⟨modifyKey t.map path OpenFileAttribute.read⟩

/-- `OpenFileTable::lease`. -/
def OpenFileTable.lease (t : OpenFileTable) (path : PathSplit) (now : Nat) :
    Except LeaseNotFoundError OpenFileTable :=
  match t.lookup path with
  | none => .error ⟨⟩
  | some _ => .ok ⟨modifyKey t.map path (fun a => a.lease now)⟩

/-- `OpenFileTable::close`: decrement the holder count of the entry, then
remove the entry if it became free; no-op when the path has no entry. -/
def OpenFileTable.close (t : OpenFileTable) (path : PathSplit) : OpenFileTable :=
  match t.lookup path with
  | none => t
  | some a =>
    if a.close.is_free then ⟨eraseKey t.map path⟩
    else ⟨modifyKey t.map path OpenFileAttribute.close⟩

/-- `OpenFileTable::clear_timeout`: collect the keys of the timed-out
entries, then remove each collected key. -/
def OpenFileTable.clear_timeout (t : OpenFileTable) (ttl now : Nat) : OpenFileTable :=
  let timed_out := (t.map.filter (fun e => e.2.is_timeout ttl now)).map Prod.fst
  ⟨timed_out.foldl (fun acc p => eraseKey acc p) t.map⟩

/-- The single-writer shape of the open-file table: every write-held entry
has exactly one holder. -/
def WriterExcl (t : OpenFileTable) : Prop :=
  ∀ e ∈ t.map, e.2.write = true → e.2.holders = 1

instance (t : OpenFileTable) : Decidable (WriterExcl t) := by
  unfold WriterExcl; infer_instance

/-! ## Replica map (`src/fs/block.rs`) -/

abbrev BlockId := String
abbrev StoreId := String

/-- `BlockBody`: the authoritative content descriptor (declared size). -/
structure BlockBody where
  size : Nat
deriving DecidableEq

/-- `ReportedBlock`: a (block id, descriptor) pair reported by a store. -/
structure ReportedBlock where
  id : BlockId
  body : BlockBody
deriving DecidableEq

/-- `CorruptedBlockError { store }`. -/
structure CorruptedBlockError where
  store : StoreId
deriving DecidableEq

/-- `ReplicatedBlock`: descriptor, confirming stores, originating path. -/
structure ReplicatedBlock where
  body : BlockBody
  stores : List StoreId
  virt_path : PathSplit
deriving DecidableEq

/-- `ReplicatedBlock::new`. -/
def ReplicatedBlock.new (body : BlockBody) (virt_path : PathSplit) : ReplicatedBlock :=
  ⟨body, [], virt_path⟩

/-- `ReplicatedBlock::push`, written state-passing: the pair holds the
record after the call and the `Result<(), CorruptedBlockError>`.  A
descriptor mismatch errors out before the store is appended. -/
def ReplicatedBlock.push (b : ReplicatedBlock) (store : StoreId) (body : BlockBody) :
    ReplicatedBlock × Except CorruptedBlockError Unit :=
  if b.body ≠ body then (b, .error ⟨store⟩)
  else ({ b with stores := b.stores ++ [store] }, .ok ())

/-- `ReplicatedBlocksMap`. -/
structure ReplicatedBlocksMap where
  map : List (BlockId × ReplicatedBlock)
deriving DecidableEq

/-- The map's `map.get(id)`. -/
def ReplicatedBlocksMap.lookup (m : ReplicatedBlocksMap) (id : BlockId) :
    Option ReplicatedBlock :=
  lookupKey m.map id

/-- `ReplicatedBlocksMap::push_store`, state-passing: an unknown id errors
out with the reporting store's id; otherwise the record found by
`get_mut` is put through `ReplicatedBlock::push`. -/
def ReplicatedBlocksMap.push_store (m : ReplicatedBlocksMap) (store : StoreId)
    (block : ReportedBlock) : ReplicatedBlocksMap × Except CorruptedBlockError Unit :=
  match m.lookup block.id with
  | none => (m, .error ⟨store⟩)
  | some b =>
    let res := b.push store block.body
    (⟨modifyKey m.map block.id (fun _ => res.1)⟩, res.2)

/-- `ReplicatedBlocksMap::stores`: empty when the id is unknown. -/
def ReplicatedBlocksMap.stores (m : ReplicatedBlocksMap) (block : BlockId) :
    List StoreId :=
  match m.lookup block with
  | none => []
  | some b => b.stores

/-! ## Storage-node registry (`src/store.rs`) -/

/-- `StoreConfig` (its network address; the address text is opaque here). -/
structure StoreConfig where
  addr : String
deriving DecidableEq

/-- `StoreStatus`: static config plus optional last heartbeat. -/
structure StoreStatus where
  config : StoreConfig
  last_heartbeat : Option Nat
deriving DecidableEq

/-- `StoreStatus::new`: registered, never heartbeated. -/
def StoreStatus.new (config : StoreConfig) : StoreStatus :=
  ⟨config, none⟩

/-- `StoreStatus::beat`. -/
def StoreStatus.beat (s : StoreStatus) (now : Nat) : StoreStatus :=
  { s with last_heartbeat := some now }

/-- `StoreStatus::is_alive`: false when never heartbeated, otherwise
`now.duration_since(last_heartbeat) <= ttl`. -/
def StoreStatus.is_alive (s : StoreStatus) (ttl now : Nat) : Bool :=
  match s.last_heartbeat with
  | none => false
  | some last_heartbeat => now - last_heartbeat ≤ ttl

/-- `StoreStatusesMap`. -/
structure StoreStatusesMap where
  map : List (StoreId × StoreStatus)
deriving DecidableEq

/-! ## Namespace tree (`src/fs/virt.rs`) -/

/-- `FsNodeAttribute` (no fields in the source). -/
structure FsNodeAttribute where
deriving DecidableEq

/-- `DirectoryAttribute` (no fields in the source). -/
structure DirectoryAttribute where
deriving DecidableEq

/-- `FileAttribute { replication: NonZeroUsize }`. -/
structure FileAttribute where
  replication : Nat
deriving DecidableEq

/-- `FileBlock`: half-open byte offset range plus block identity. -/
structure FileBlock where
  off_range : Nat × Nat
  id : BlockId
deriving DecidableEq

/-- `File`: attribute plus ordered block sequence. -/
structure File where
  attr : FileAttribute
  blocks : List FileBlock
deriving DecidableEq

/-- `File::new`: no blocks yet. -/
def File.new (attr : FileAttribute) : File :=
  ⟨attr, []⟩

mutual
/-- `FsNode { attr, body }`. -/
inductive FsNode where
  | mk (attr : FsNodeAttribute) (body : FsNodeBody)
/-- `FsNodeBody`: directory or file. -/
inductive FsNodeBody where
  | directory (d : Directory)
  | file (f : File)
/-- `Directory { attr, nodes }`: named children. -/
inductive Directory where
  | mk (attr : DirectoryAttribute) (nodes : List (String × FsNode))
end

/-- Field accessor for `FsNode.attr`. -/
def FsNode.attr : FsNode → FsNodeAttribute
  | .mk a _ => a

/-- Field accessor for `FsNode.body`. -/
def FsNode.body : FsNode → FsNodeBody
  | .mk _ b => b

/-- Field accessor for `Directory.nodes`. -/
def Directory.nodes : Directory → List (String × FsNode)
  | .mk _ ns => ns

/-- Field accessor for `Directory.attr`. -/
def Directory.dattr : Directory → DirectoryAttribute
  | .mk a _ => a

/-- `FileExist { path }`. -/
structure FileExist where
  path : PathCursor

/-- `FileNotExist { path }`. -/
structure FileNotExist where
  path : PathCursor

/-- `DirectoryNotExist { path }`. -/
structure DirectoryNotExist where
  path : PathCursor

/-- `FsNodeQueryError`. -/
inductive FsNodeQueryError where
  | fileNotExist (e : FileNotExist)
  | directoryNotExist (e : DirectoryNotExist)

/-- `FsNodeCreateFileError`. -/
inductive FsNodeCreateFileError where
  | fileExist (e : FileExist)
  | directoryNotExist (e : DirectoryNotExist)

/-- `DirectoryInsertError { node }`: the rejected node travels back to the
caller inside the error. -/
structure DirectoryInsertError where
  node : FsNode

/-- `Directory::insert`, state-passing: refuse (returning the rejected node
and the unchanged directory) when the key is taken, else add the child. -/
def Directory.insert (d : Directory) (key : String) (node : FsNode) :
    Directory × Except DirectoryInsertError Unit :=
  if (lookupKey d.nodes key).isSome then (d, .error ⟨node⟩)
  else (.mk d.dattr (d.nodes ++ [(key, node)]), .ok ())

/-- The recursion of `FsNode::get` over a non-exhausted cursor (the cursor
is passed unpacked as current segment + remaining segments; stepping to
`path.next()` is the structural step on `rest`). -/
def FsNode.getAux : FsNode → String → List String → Except FsNodeQueryError FsNode
  | .mk _ (.directory (.mk _ nodes)), c, rest =>
    match lookupKey nodes c with
    | none => .error (.fileNotExist ⟨⟨c, rest⟩⟩)
    | some node =>
      match rest with
      | [] => .ok node
      | s :: r => FsNode.getAux node s r
  | .mk _ (.file _), c, rest => .error (.directoryNotExist ⟨⟨c, rest⟩⟩)

/-- `FsNode::get`: an absent cursor resolves to the node itself. -/
def FsNode.get (self : FsNode) : Option PathCursor → Except FsNodeQueryError FsNode
  | none => .ok self
  | some pc => FsNode.getAux self pc.curr pc.rest

/-- The recursion of `FsNode::create_node` (cursor passed unpacked).  At an
intermediate segment, descend into the named child (missing child or a
file on the way is `DirectoryNotExist`); at the terminal segment, refuse
`FileExist` when the name is taken, else insert the produced node. -/
def FsNode.createAux : FsNode → String → List String → (Unit → FsNode) →
    Except FsNodeCreateFileError FsNode
  | .mk _ (.file _), c, rest, _ => .error (.directoryNotExist ⟨⟨c, rest⟩⟩)
  | .mk attr (.directory (.mk dattr nodes)), c, rest, new_node =>
    match rest with
    | s :: r =>
      match lookupKey nodes c with
      | none => .error (.directoryNotExist ⟨⟨c, s :: r⟩⟩)
      | some node =>
        match FsNode.createAux node s r new_node with
        | .error e => .error e
        | .ok node' => .ok (.mk attr (.directory (.mk dattr (modifyKey nodes c (fun _ => node')))))
    | [] =>
      if (lookupKey nodes c).isSome then .error (.fileExist ⟨⟨c, []⟩⟩)
      else .ok (.mk attr (.directory (.mk dattr (nodes ++ [(c, new_node ())]))))

/-- `FsNode::create_node`.  The error constructors are produced before any
mutation in the source, so the error case leaves the tree as it was. -/
def FsNode.create_node (self : FsNode) (path : PathCursor) (new_node : Unit → FsNode) :
    Except FsNodeCreateFileError FsNode :=
  FsNode.createAux self path.curr path.rest new_node

/-- The write-back half of `FsNode::get_mut`: apply `f` to the node the
cursor resolves to (identity when resolution fails).  `get_mut` hands out
a mutable reference; reading through it is `FsNode.get` and writing
through it is this function. -/
def FsNode.modifyAux : FsNode → String → List String → (FsNode → FsNode) → FsNode
  | .mk attr (.file f), _, _, _ => .mk attr (.file f)
  | .mk attr (.directory (.mk dattr nodes)), c, rest, f =>
    match lookupKey nodes c with
    | none => .mk attr (.directory (.mk dattr nodes))
    | some node =>
      match rest with
      | [] => .mk attr (.directory (.mk dattr (modifyKey nodes c (fun _ => f node))))
      | s :: r =>
        .mk attr (.directory (.mk dattr (modifyKey nodes c (fun _ => FsNode.modifyAux node s r f))))

/-- `FsNode.modify_at`: lens-style update at an optional cursor. -/
def FsNode.modify_at (self : FsNode) : Option PathCursor → (FsNode → FsNode) → FsNode
  | none, f => f self
  | some pc, f => FsNode.modifyAux self pc.curr pc.rest f

/-- The tree invariant of the spec: every directory's child names are
unique, recursively. -/
inductive FsNode.UniqueNames : FsNode → Prop where
  | file (attr : FsNodeAttribute) (f : File) :
      FsNode.UniqueNames (.mk attr (.file f))
  | directory (attr : FsNodeAttribute) (dattr : DirectoryAttribute)
      (nodes : List (String × FsNode))
      (hnodup : NodupKeys nodes)
      (hchildren : ∀ e ∈ nodes, FsNode.UniqueNames e.2) :
      FsNode.UniqueNames (.mk attr (.directory (.mk dattr nodes)))

/-- A sequence of `create_node` calls driven from the root; a failed
create leaves the tree as it was (the source returns the error to the
caller without mutating). -/
def applyCreates (root : FsNode) (ops : List (PathCursor × FsNode)) : FsNode :=
  ops.foldl
    (fun t op =>
      match t.create_node op.1 (fun _ => op.2) with
      | .ok t' => t'
      | .error _ => t)
    root

/-! ## Control protocol and request handler
(`src/proto/control.rs`, `src/server/control/handler.rs`)

The `BlockReportReq` arm of `Handler::handle_req` is `todo!()` in the
source and is not modelled; the corresponding request variant is omitted.
In the `AllocBlockReq` arm the source mints the fresh block id and picks
the target store address with `todo!()`; both are taken as parameters
here (`freshId`, `storeAddr`), which leaves every implemented check and
mutation of that arm faithfully modelled. -/

/-- The request variants of `ControlReq` whose handler arms are
implemented. -/
inductive ControlReq where
  | openReq (write : Bool) (path : String)
  | openLeaseReq (path : String)
  | closeReq (path : String)
  | allocBlockReq (path : String) (off_range : Nat × Nat)
deriving DecidableEq

/-- `AllocBlockResp`. -/
inductive AllocBlockResp where
  | ok (block : BlockId) (store_addr : String)
  | rejected
deriving DecidableEq

/-- `Resp` (the handler's response; `OpenResp {}` and
`OpenLeaseResp { permitted }` carry what the source structs carry). -/
inductive Resp where
  | none
  | openResp
  | openLeaseResp (permitted : Bool)
  | allocBlockResp (r : AllocBlockResp)
deriving DecidableEq

/-- `REPLICATION` (the handler's default replication factor). -/
def REPLICATION : Nat := 3

/-- `Handler`: exclusive owner of the four state structures. -/
structure Handler where
  virt_fs : FsNode
  open_table : OpenFileTable
  store_statuses : StoreStatusesMap
  replicated_blocks : ReplicatedBlocksMap

/-- The tail of the `OpenReq` arm: register the path in the open-file
table under the exclusion check; `Ok` answers `Resp::None`, a conflict
answers the `OpenResp {}` rejection. -/
def Handler.open_table_step (h : Handler) (path : PathSplit) (write : Bool)
    (now : Nat) : Handler × Resp :=
  match h.open_table.open' path write now with
  | .ok t' => ({ h with open_table := t' }, .none)
  | .error _ => (h, .openResp)

/-- The update applied to the resolved file node when a block allocation
succeeds: append the new `FileBlock` (the `file.blocks_mut().push(block)`
of the source, seen through the `get_mut` lens). -/
def appendBlock (off_range : Nat × Nat) (id : BlockId) (n : FsNode) : FsNode :=
  match n.body with
  | .file f => .mk n.attr (.file { f with blocks := f.blocks ++ [FileBlock.mk off_range id] })
  | .directory d => .mk n.attr (.directory d)

/-- `Handler::handle_req` (`now` is the `Instant::now()` the source takes
at entry; `freshId` and `storeAddr` stand for the two `todo!()` values of
the `AllocBlockReq` success path, see the section comment). -/
def Handler.handle_req (h : Handler) (msg : ControlReq) (now : Nat)
    (freshId : BlockId) (storeAddr : String) : Handler × Resp :=
  match msg with
  | .openReq write pathStr =>
    let path := PathSplit.from_uri pathStr
    let path_cursor := PathCursor.new path
    if write then
      match path_cursor with
      | none => (h, .openResp)
      | some pc =>
        match h.virt_fs.create_node pc
            (fun _ => FsNode.mk ⟨⟩ (.file (File.new ⟨REPLICATION⟩))) with
        | .ok fs' => Handler.open_table_step { h with virt_fs := fs' } path write now
        | .error (.fileExist _) => Handler.open_table_step h path write now
        | .error (.directoryNotExist _) => (h, .openResp)
    else
      match h.virt_fs.get path_cursor with
      | .error _ => (h, .openResp)
      | .ok node =>
        match node.body with
        | .file _ => Handler.open_table_step h path write now
        | .directory _ => (h, .openResp)
  | .openLeaseReq pathStr =>
    let path := PathSplit.from_uri pathStr
    match h.open_table.lease path now with
    | .ok t' => ({ h with open_table := t' }, .openLeaseResp true)
    | .error _ => (h, .openLeaseResp false)
  | .closeReq pathStr =>
    let path := PathSplit.from_uri pathStr
    ({ h with open_table := h.open_table.close path }, .none)
  | .allocBlockReq pathStr off_range =>
    let path := PathSplit.from_uri pathStr
    let pc := PathCursor.new path
    match h.virt_fs.get pc with
    | .error _ => (h, .allocBlockResp .rejected)
    | .ok node =>
      match node.body with
      | .directory _ => (h, .allocBlockResp .rejected)
      | .file file =>
        match file.blocks.getLast? with
        | some last =>
          if off_range.1 ≠ last.off_range.2 then (h, .allocBlockResp .rejected)
          else
            ({ h with virt_fs := h.virt_fs.modify_at pc (appendBlock off_range freshId) },
              .allocBlockResp (.ok freshId storeAddr))
        | none =>
          ({ h with virt_fs := h.virt_fs.modify_at pc (appendBlock off_range freshId) },
            .allocBlockResp (.ok freshId storeAddr))

/-! ## Concrete states used by the witnesses -/

/-- The one-segment path `a`. -/
def pA : PathSplit := ⟨["a"]⟩

/-- A table holding `a` write-held since time 0. -/
def tWriter : OpenFileTable := ⟨[(pA, ⟨true, 0, 1⟩)]⟩

/-- A table holding `a` read-held by two holders, last leased at time 0. -/
def tStale : OpenFileTable := ⟨[(pA, ⟨false, 0, 2⟩)]⟩

/-- A replica map with one block `b1` of declared size 4, no confirmations. -/
def rmapC : ReplicatedBlocksMap := ⟨[("b1", ⟨⟨4⟩, [], pA⟩)]⟩

/-- An empty file node (replication 3, no blocks). -/
def fileNodeEmptyBlocks : FsNode := .mk ⟨⟩ (.file ⟨⟨3⟩, []⟩)

/-- A file node holding one block `[0, 100)`. -/
def fileNodeOneBlock : FsNode := .mk ⟨⟩ (.file ⟨⟨3⟩, [⟨(0, 100), "b0"⟩]⟩)

/-- An empty directory node. -/
def emptyDirNode : FsNode := .mk ⟨⟩ (.directory (.mk ⟨⟩ []))

/-- A directory whose only child is the file `a`. -/
def dirWithA : Directory := .mk ⟨⟩ [("a", fileNodeEmptyBlocks)]

/-- A handler whose root directory holds the file `f` with one block. -/
def hAllocOne : Handler :=
  ⟨.mk ⟨⟩ (.directory (.mk ⟨⟩ [("f", fileNodeOneBlock)])), ⟨[]⟩, ⟨[]⟩, ⟨[]⟩⟩

/-- A handler whose root directory holds the blockless file `f`. -/
def hAllocEmpty : Handler :=
  ⟨.mk ⟨⟩ (.directory (.mk ⟨⟩ [("f", fileNodeEmptyBlocks)])), ⟨[]⟩, ⟨[]⟩, ⟨[]⟩⟩

/-- A handler whose root directory holds the empty directory `a`. -/
def hDir : Handler :=
  ⟨.mk ⟨⟩ (.directory (.mk ⟨⟩ [("a", emptyDirNode)])), ⟨[]⟩, ⟨[]⟩, ⟨[]⟩⟩

/-! ## Lemmas about the association-list operations -/

section AssocLemmas

variable {K V : Type} [DecidableEq K]

theorem lookupKey_nil (k : K) : lookupKey ([] : List (K × V)) k = none := rfl

theorem lookupKey_cons (e : K × V) (l : List (K × V)) (k : K) :
    lookupKey (e :: l) k = if e.1 = k then some e.2 else lookupKey l k := by
  by_cases h : e.1 = k <;> simp [lookupKey, List.find?, h]

theorem lookupKey_eq_none (l : List (K × V)) (k : K) :
    lookupKey l k = none ↔ k ∉ l.map Prod.fst := by
  induction l with
  | nil => simp [lookupKey]
  | cons e rest ih =>
    rw [lookupKey_cons]
    by_cases h : e.1 = k
    · simp [h]
    · simp only [h, ite_false, ih, List.map_cons, List.mem_cons]
      constructor
      · rintro hk (rfl | hm)
        · exact h rfl
        · exact hk hm
      · exact fun hk hm => hk (Or.inr hm)

theorem lookupKey_mem {l : List (K × V)} {k : K} {v : V}
    (h : lookupKey l k = some v) : (k, v) ∈ l := by
  induction l with
  | nil => simp [lookupKey] at h
  | cons e rest ih =>
    rw [lookupKey_cons] at h
    by_cases he : e.1 = k
    · simp only [he, if_pos] at h
      obtain ⟨rfl⟩ := h
      exact List.mem_cons.mpr (Or.inl (by rw [← he]))
    · simp only [he, ite_false] at h
      exact List.mem_cons_of_mem _ (ih h)

theorem lookupKey_append_self {l : List (K × V)} {k : K} (v : V)
    (h : lookupKey l k = none) : lookupKey (l ++ [(k, v)]) k = some v := by
  induction l with
  | nil => simp [lookupKey_cons, lookupKey]
  | cons e rest ih =>
    rw [lookupKey_cons] at h
    by_cases he : e.1 = k
    · simp [he] at h
    · rw [List.cons_append, lookupKey_cons, if_neg he]
      exact ih (by simpa [he] using h)

theorem lookupKey_append_ne {l : List (K × V)} {k q : K} (v : V)
    (h : q ≠ k) : lookupKey (l ++ [(k, v)]) q = lookupKey l q := by
  induction l with
  | nil =>
    show lookupKey [(k, v)] q = lookupKey [] q
    rw [lookupKey_cons, if_neg (Ne.symm h)]
  | cons e rest ih =>
    rw [List.cons_append, lookupKey_cons, lookupKey_cons]
    by_cases he : e.1 = q <;> simp [he, ih]

theorem lookupKey_modifyKey_self {l : List (K × V)} {k : K} {v : V}
    (f : V → V) (h : lookupKey l k = some v) :
    lookupKey (modifyKey l k f) k = some (f v) := by
  induction l with
  | nil => simp [lookupKey] at h
  | cons e rest ih =>
    rw [lookupKey_cons] at h
    by_cases he : e.1 = k
    · simp only [he, if_pos] at h
      obtain ⟨rfl⟩ := h
      simp [modifyKey, he, lookupKey_cons]
    · simp only [he, ite_false] at h
      simp [modifyKey, he, lookupKey_cons, ih h]

theorem lookupKey_modifyKey_ne {l : List (K × V)} {k q : K}
    (f : V → V) (h : q ≠ k) :
    lookupKey (modifyKey l k f) q = lookupKey l q := by
  induction l with
  | nil => rfl
  | cons e rest ih =>
    by_cases he : e.1 = k
    · simp [modifyKey, he, lookupKey_cons, Ne.symm h]
    · simp [modifyKey, he, lookupKey_cons, ih]

theorem modifyKey_const_self {l : List (K × V)} {k : K} {v : V}
    (h : lookupKey l k = some v) : modifyKey l k (fun _ => v) = l := by
  induction l with
  | nil => rfl
  | cons e rest ih =>
    rw [lookupKey_cons] at h
    by_cases he : e.1 = k
    · simp only [he, if_pos] at h
      obtain ⟨rfl⟩ := h
      have hpair : ((k, e.2) : K × V) = e := he ▸ Prod.mk.eta
      simp [modifyKey, he, hpair]
    · simp only [he, ite_false] at h
      simp [modifyKey, he, ih h]

theorem mem_modifyKey {l : List (K × V)} {k : K} {f : V → V} {x : K × V}
    (h : x ∈ modifyKey l k f) :
    x ∈ l ∨ ∃ v, lookupKey l k = some v ∧ x = (k, f v) := by
  induction l with
  | nil => simp [modifyKey] at h
  | cons e rest ih =>
    by_cases he : e.1 = k
    · rw [modifyKey, if_pos he] at h
      rcases List.mem_cons.mp h with hx | hx
      · exact Or.inr ⟨e.2, by simp [lookupKey_cons, he], by rw [hx, he]⟩
      · exact Or.inl (List.mem_cons_of_mem _ hx)
    · rw [modifyKey, if_neg he] at h
      rcases List.mem_cons.mp h with hx | hx
      · exact Or.inl (hx ▸ List.mem_cons_self _ _)
      · rcases ih hx with hx' | ⟨v, hv, hx'⟩
        · exact Or.inl (List.mem_cons_of_mem _ hx')
        · exact Or.inr ⟨v, by simp [lookupKey_cons, he, hv], hx'⟩

theorem modifyKey_map_fst (l : List (K × V)) (k : K) (f : V → V) :
    (modifyKey l k f).map Prod.fst = l.map Prod.fst := by
  induction l with
  | nil => rfl
  | cons e rest ih =>
    by_cases he : e.1 = k <;> simp [modifyKey, he, ih]

theorem eraseKey_sublist (l : List (K × V)) (k : K) :
    (eraseKey l k).Sublist l :=
  List.eraseP_sublist l

theorem nodupKeys_eraseKey {l : List (K × V)} (k : K)
    (h : NodupKeys l) : NodupKeys (eraseKey l k) :=
  List.Nodup.sublist (List.Sublist.map Prod.fst (eraseKey_sublist l k)) h

theorem eraseKey_eq_filter {l : List (K × V)} (k : K) (h : NodupKeys l) :
    eraseKey l k = l.filter (fun e => !(decide (e.1 = k))) := by
  induction l with
  | nil => rfl
  | cons e rest ih =>
    have hrest : NodupKeys rest := (List.nodup_cons.mp h).2
    by_cases he : e.1 = k
    · have hk : k ∉ rest.map Prod.fst := he ▸ (List.nodup_cons.mp h).1
      have : rest.filter (fun e => !(decide (e.1 = k))) = rest := by
        apply List.filter_eq_self.mpr
        intro a ha
        simp only [Bool.not_eq_true', decide_eq_false_iff_not]
        intro hak
        exact hk (hak ▸ List.mem_map_of_mem Prod.fst ha)
      simp [eraseKey, List.eraseP_cons, he, this]
    · have h1 : (decide (e.1 = k)) = false := decide_eq_false he
      simp only [eraseKey, List.eraseP_cons, h1, cond_false, List.filter_cons, Bool.not_false,
        if_true, List.cons.injEq, true_and]
      exact ih hrest

theorem nodup_key_inj {l : List (K × V)} {e e' : K × V}
    (h : NodupKeys l) (he : e ∈ l) (he' : e' ∈ l) (hk : e.1 = e'.1) :
    e = e' := by
  induction l with
  | nil => simp at he
  | cons a rest ih =>
    obtain ⟨ha, hrest⟩ := List.nodup_cons.mp h
    rcases List.mem_cons.mp he with rfl | hem
    · rcases List.mem_cons.mp he' with rfl | hem'
      · rfl
      · exact absurd (List.mem_map_of_mem Prod.fst hem') (hk ▸ ha)
    · rcases List.mem_cons.mp he' with rfl | hem'
      · exact absurd (hk ▸ List.mem_map_of_mem Prod.fst hem) ha
      · exact ih hrest hem hem'

end AssocLemmas

/-! ## C5: storage-node liveness -/

/-- C5: `is_alive(ttl, now)` is false when the node never heartbeated, and
otherwise true exactly when `now - last_heartbeat ≤ ttl`; concretely,
after a heartbeat at time 0, with `ttl = 30` the node is dead at `now =
31` and alive at `now = 29`. -/
theorem is_alive_spec (c : StoreConfig) (lh ttl now : Nat) :
    (StoreStatus.is_alive ⟨c, none⟩ ttl now = false)
    ∧ (StoreStatus.is_alive ⟨c, some lh⟩ ttl now = true ↔ now - lh ≤ ttl)
    ∧ ((StoreStatus.new c).beat 0).is_alive 30 31 = false
    ∧ ((StoreStatus.new c).beat 0).is_alive 30 29 = true := by
  refine ⟨rfl, ?_, rfl, rfl⟩
  simp [StoreStatus.is_alive]

/-! ## C1: open-file table `open` -/

/-- C1: `open(path, want_write, now)` conflicts exactly when an entry
exists and (it is write-held or the request wants to write); on success
with no prior entry, a fresh entry `⟨want_write, now, 1⟩` appears and no
other path's entry changes; on success with a prior entry, that entry's
holder count is incremented by one (flag and lease stamp kept) and no
other path's entry changes. -/
theorem open_spec (t : OpenFileTable) (p : PathSplit) (w : Bool) (now : Nat) :
    ((∃ e, t.open' p w now = .error e) ↔
      ∃ a, t.lookup p = some a ∧ (a.write = true ∨ w = true))
    ∧ (t.lookup p = none →
        ∃ t', t.open' p w now = .ok t' ∧
          t'.lookup p = some (OpenFileAttribute.new w now) ∧
          ∀ q, q ≠ p → t'.lookup q = t.lookup q)
    ∧ (∀ a t', t.lookup p = some a → t.open' p w now = .ok t' →
        t'.lookup p = some ⟨a.write, a.last_lease, a.holders + 1⟩ ∧
        ∀ q, q ≠ p → t'.lookup q = t.lookup q) := by
  unfold OpenFileTable.open'
  cases hl : t.lookup p with
  | none =>
    simp only [hl, if_false, Bool.false_eq_true]
    refine ⟨⟨?_, ?_⟩, ?_, ?_⟩
    · rintro ⟨e, he⟩
      exact Except.noConfusion he
    · rintro ⟨a, ha, _⟩
      exact Option.noConfusion ha
    · intro _
      refine ⟨_, rfl, ?_, ?_⟩
      · exact lookupKey_append_self _ hl
      · intro q hq
        exact lookupKey_append_ne _ hq
    · intro a t' ha _
      exact Option.noConfusion ha
  | some a =>
    by_cases hw : (a.write || w) = true
    · simp only [hl, hw, if_true]
      refine ⟨⟨?_, ?_⟩, ?_, ?_⟩
      · intro _
        rcases Bool.or_eq_true_iff.mp hw with h | h
        · exact ⟨a, rfl, Or.inl h⟩
        · exact ⟨a, rfl, Or.inr h⟩
      · intro _
        exact ⟨⟨p⟩, rfl⟩
      · intro h
        exact Option.noConfusion h
      · intro a' t' _ hok
        exact Except.noConfusion hok
    · have hor : (a.write || w) = false := Bool.eq_false_iff.mpr hw
      rw [Bool.or_eq_false_iff] at hor
      obtain ⟨hwa, hww⟩ := hor
      have hread : OpenFileAttribute.read a =
          ⟨a.write, a.last_lease, a.holders + 1⟩ := by
        unfold OpenFileAttribute.read
        rw [hwa]
        simp
      simp only [hl, hwa, hww, Bool.or_self, if_false, Bool.false_eq_true]
      refine ⟨⟨?_, ?_⟩, ?_, ?_⟩
      · rintro ⟨e, he⟩
        exact Except.noConfusion he
      · rintro ⟨b, hb, hor'⟩
        injection hb with hba
        subst hba
        rcases hor' with h | h
        · rw [hwa] at h
          exact Bool.noConfusion h
        · exact h.elim
      · intro h
        exact Option.noConfusion h
      · intro b t' hb hok
        injection hb with hba
        subst hba
        obtain ⟨rfl⟩ := hok
        constructor
        · show lookupKey (modifyKey t.map p _) p = _
          rw [lookupKey_modifyKey_self _ hl, hread]
        · intro q hq
          show lookupKey (modifyKey t.map p _) q = _
          rw [lookupKey_modifyKey_ne _ hq]
          rfl

/-- Witness for C1 at concrete inputs: opening `a` read-only against a
write-held table conflicts, and a first open of `a` on the empty table
creates the entry `⟨true, 5, 1⟩`. -/
theorem open_spec_wit :
    (∃ e, tWriter.open' pA false 7 = .error e)
    ∧ (∃ t', OpenFileTable.new.open' pA true 5 = .ok t' ∧
        t'.lookup pA = some (OpenFileAttribute.new true 5) ∧
        ∀ q, q ≠ pA → t'.lookup q = OpenFileTable.new.lookup q) :=
  ⟨(open_spec tWriter pA false 7).1.mpr ⟨⟨true, 0, 1⟩, rfl, Or.inl rfl⟩,
    (open_spec OpenFileTable.new pA true 5).2.1 rfl⟩

/-! ## C3: replica-map `push_store` -/

/-- C3: `push_store(store, block)` returns `Corrupted{store}` and leaves
the map untouched both when the block id is unknown and when the reported
descriptor differs from the authoritative one; when the id is known and
the descriptors agree it succeeds, appends `store` to that record's
confirming list, and changes no other record. -/
theorem push_store_spec (m : ReplicatedBlocksMap) (store : StoreId)
    (block : ReportedBlock) :
    (m.lookup block.id = none → m.push_store store block = (m, .error ⟨store⟩))
    ∧ (∀ b, m.lookup block.id = some b → b.body ≠ block.body →
        m.push_store store block = (m, .error ⟨store⟩))
    ∧ (∀ b, m.lookup block.id = some b → b.body = block.body →
        (m.push_store store block).2 = .ok ()
        ∧ (m.push_store store block).1.lookup block.id =
            some { b with stores := b.stores ++ [store] }
        ∧ ∀ q, q ≠ block.id → (m.push_store store block).1.lookup q = m.lookup q) := by
  refine ⟨?_, ?_, ?_⟩
  · intro hl
    unfold ReplicatedBlocksMap.push_store
    rw [hl]
  · intro b hl hne
    have hl' : lookupKey m.map block.id = some b := hl
    have hp : b.push store block.body = (b, .error ⟨store⟩) := by
      unfold ReplicatedBlock.push
      rw [if_pos hne]
    unfold ReplicatedBlocksMap.push_store
    rw [hl]
    show (ReplicatedBlocksMap.mk (modifyKey m.map block.id
        (fun _ => (b.push store block.body).1)), (b.push store block.body).2)
      = (m, .error ⟨store⟩)
    rw [hp]
    rw [show (fun _ : ReplicatedBlock => ((b, Except.error ⟨store⟩) :
        ReplicatedBlock × Except CorruptedBlockError Unit).1) =
      (fun _ : ReplicatedBlock => b) from rfl]
    rw [modifyKey_const_self hl']
  · intro b hl he
    have hl' : lookupKey m.map block.id = some b := hl
    have hp : b.push store block.body =
        ({ b with stores := b.stores ++ [store] }, .ok ()) := by
      unfold ReplicatedBlock.push
      rw [if_neg (by simp [he])]
    unfold ReplicatedBlocksMap.push_store
    rw [hl]
    refine ⟨?_, ?_, ?_⟩
    · show (b.push store block.body).2 = Except.ok ()
      rw [hp]
    · show lookupKey (modifyKey m.map block.id
          (fun _ => (b.push store block.body).1)) block.id =
        some { b with stores := b.stores ++ [store] }
      simp only [hp]
      exact lookupKey_modifyKey_self _ hl'
    · intro q hq
      show lookupKey (modifyKey m.map block.id
          (fun _ => (b.push store block.body).1)) q = m.lookup q
      rw [lookupKey_modifyKey_ne _ hq]
      rfl

/-- Witness for C3 at concrete inputs: against a map whose record for
`b1` has size 4, a report of `b1` with size 5 from `s1` is `Corrupted`
and leaves the map unchanged, and a matching report appends `s1`. -/
theorem push_store_spec_wit :
    rmapC.push_store "s1" ⟨"b1", ⟨5⟩⟩ = (rmapC, .error ⟨"s1"⟩)
    ∧ (rmapC.push_store "s1" ⟨"b1", ⟨4⟩⟩).1.lookup "b1" =
        some ⟨⟨4⟩, ["s1"], pA⟩ :=
  ⟨(push_store_spec rmapC "s1" ⟨"b1", ⟨5⟩⟩).2.1 ⟨⟨4⟩, [], pA⟩ rfl (by decide),
    ((push_store_spec rmapC "s1" ⟨"b1", ⟨4⟩⟩).2.2 ⟨⟨4⟩, [], pA⟩ rfl rfl).2.1⟩

/-! ## C4 and C8: the lease-timeout sweep -/

section SweepLemmas

variable {K V : Type} [DecidableEq K]

theorem foldl_eraseKey_eq_filter (ks : List K) :
    ∀ l : List (K × V), NodupKeys l →
      ks.foldl (fun acc p => eraseKey acc p) l =
        l.filter (fun e => !(decide (e.1 ∈ ks))) := by
  induction ks with
  | nil =>
    intro l _
    simp
  | cons k ks ih =>
    intro l h
    rw [List.foldl_cons, ih _ (nodupKeys_eraseKey k h), eraseKey_eq_filter k h,
      List.filter_filter]
    apply List.filter_congr
    intro x _
    by_cases h1 : x.1 ∈ ks <;> by_cases h2 : x.1 = k <;>
      simp [h1, h2, List.mem_cons]

theorem key_mem_filter_map_iff {l : List (K × V)} {p : K × V → Bool}
    {e : K × V} (h : NodupKeys l) (he : e ∈ l) :
    e.1 ∈ (l.filter p).map Prod.fst ↔ p e = true := by
  constructor
  · intro hm
    obtain ⟨e', he', hk⟩ := List.mem_map.mp hm
    obtain ⟨he'l, hpe'⟩ := List.mem_filter.mp he'
    have : e' = e := nodup_key_inj h he'l he hk
    exact this ▸ hpe'
  · intro hp
    exact List.mem_map_of_mem Prod.fst (List.mem_filter.mpr ⟨he, hp⟩)

end SweepLemmas

/-- C4: the sweep removes exactly the entries whose
`now - last_lease > ttl`, whatever their holder count: an entry of the
table survives (unchanged, holder count and all) exactly when
`now - last_lease ≤ ttl`. -/
theorem clear_timeout_spec (t : OpenFileTable) (ttl now : Nat)
    (h : NodupKeys t.map) :
    ∀ e, e ∈ (t.clear_timeout ttl now).map ↔
      (e ∈ t.map ∧ now - e.2.last_lease ≤ ttl) := by
  intro e
  show e ∈ ((t.map.filter (fun e => e.2.is_timeout ttl now)).map Prod.fst).foldl
      (fun acc p => eraseKey acc p) t.map ↔ _
  rw [foldl_eraseKey_eq_filter _ _ h, List.mem_filter]
  constructor
  · rintro ⟨hel, hne⟩
    refine ⟨hel, ?_⟩
    rw [Bool.not_eq_true', decide_eq_false_iff_not] at hne
    have := (key_mem_filter_map_iff h hel).not.mp hne
    rw [Bool.not_eq_true] at this
    have := of_decide_eq_false (by
      show decide (ttl < now - e.2.last_lease) = false
      exact this)
    exact Nat.le_of_not_lt this
  · rintro ⟨hel, hle⟩
    refine ⟨hel, ?_⟩
    rw [Bool.not_eq_true', decide_eq_false_iff_not]
    intro hmem
    have := (key_mem_filter_map_iff h hel).mp hmem
    have : ttl < now - e.2.last_lease := of_decide_eq_true this
    exact Nat.not_lt.mpr hle this

/-- Witness for C4 at concrete inputs: with `ttl = 5`, `now = 10`, the
entry for `a` leased at 0 with two holders is evicted (membership in the
swept table is equivalent to `10 - 0 ≤ 5`, which is false). -/
theorem clear_timeout_spec_wit :
    (pA, OpenFileAttribute.mk false 0 2) ∈ (tStale.clear_timeout 5 10).map ↔
      ((pA, OpenFileAttribute.mk false 0 2) ∈ tStale.map ∧ 10 - 0 ≤ 5) :=
  clear_timeout_spec tStale 5 10 (by decide) (pA, ⟨false, 0, 2⟩)

/-- C8: sweeping twice with the same `ttl` and `now` gives the same table
as sweeping once. -/
theorem clear_timeout_idem (t : OpenFileTable) (ttl now : Nat)
    (h : NodupKeys t.map) :
    (t.clear_timeout ttl now).clear_timeout ttl now = t.clear_timeout ttl now := by
  have hnil : (t.clear_timeout ttl now).map.filter
      (fun e => e.2.is_timeout ttl now) = [] := by
    rw [List.filter_eq_nil_iff]
    intro e he
    have hle := ((clear_timeout_spec t ttl now h e).mp he).2
    show ¬(decide (ttl < now - e.2.last_lease) = true)
    rw [decide_eq_true_eq]
    exact Nat.not_lt.mpr hle
  show OpenFileTable.mk ((((t.clear_timeout ttl now).map.filter
      (fun e => e.2.is_timeout ttl now)).map Prod.fst).foldl
      (fun acc p => eraseKey acc p) (t.clear_timeout ttl now).map) = _
  rw [hnil]
  rfl

/-- Witness for C8 at concrete inputs: double sweep of the stale table. -/
theorem clear_timeout_idem_wit :
    (tStale.clear_timeout 5 10).clear_timeout 5 10 = tStale.clear_timeout 5 10 :=
  clear_timeout_idem tStale 5 10 (by decide)

/-! ## C9: the single-writer invariant -/

theorem mem_foldl_eraseKey {K V : Type} [DecidableEq K] (ks : List K) :
    ∀ {l : List (K × V)} {x : K × V},
      x ∈ ks.foldl (fun acc p => eraseKey acc p) l → x ∈ l := by
  induction ks with
  | nil =>
    intro l x hx
    exact hx
  | cons k ks ih =>
    intro l x hx
    rw [List.foldl_cons] at hx
    exact (eraseKey_sublist l k).subset (ih hx)

/-- C9: if every write-held entry of the table has exactly one holder,
the same is true after any `open` success, any `lease` success, any
`close` and any sweep. -/
theorem writer_excl_inv (t : OpenFileTable) (hInv : WriterExcl t) :
    (∀ p w now t', t.open' p w now = .ok t' → WriterExcl t')
    ∧ (∀ p now t', t.lease p now = .ok t' → WriterExcl t')
    ∧ (∀ p, WriterExcl (t.close p))
    ∧ (∀ ttl now, WriterExcl (t.clear_timeout ttl now)) := by
  refine ⟨?_, ?_, ?_, ?_⟩
  · intro p w now t' hok
    unfold OpenFileTable.open' at hok
    cases hl : t.lookup p with
    | none =>
      simp only [hl, if_false, Bool.false_eq_true] at hok
      obtain ⟨rfl⟩ := hok
      intro e he hw2
      rcases List.mem_append.mp he with hel | hel
      · exact hInv e hel hw2
      · rw [List.mem_singleton] at hel
        subst hel
        rfl
    | some a =>
      by_cases hw : (a.write || w) = true
      · simp only [hl, hw, if_true] at hok
        exact Except.noConfusion hok
      · have hor : (a.write || w) = false := Bool.eq_false_iff.mpr hw
        rw [Bool.or_eq_false_iff] at hor
        obtain ⟨hwa, hww⟩ := hor
        simp only [hl, hwa, hww, Bool.or_self, if_false, Bool.false_eq_true] at hok
        obtain ⟨rfl⟩ := hok
        intro e he hw2
        rcases mem_modifyKey he with hel | ⟨v, hv, rfl⟩
        · exact hInv e hel hw2
        · have hva : v = a := by
            rw [show lookupKey t.map p = t.lookup p from rfl, hl] at hv
            injection hv with h1
            exact h1.symm
          subst hva
          have hwv : (OpenFileAttribute.read v).write = v.write := by
            unfold OpenFileAttribute.read
            by_cases hx : v.write <;> simp [hx]
          rw [hwv] at hw2
          rw [hwa] at hw2
          exact Bool.noConfusion hw2
  · intro p now t' hok
    unfold OpenFileTable.lease at hok
    cases hl : t.lookup p with
    | none =>
      rw [hl] at hok
      exact Except.noConfusion hok
    | some a =>
      rw [hl] at hok
      obtain ⟨rfl⟩ := hok
      intro e he hw2
      rcases mem_modifyKey he with hel | ⟨v, hv, rfl⟩
      · exact hInv e hel hw2
      · exact hInv (p, v) (lookupKey_mem hv) hw2
  · intro p
    unfold OpenFileTable.close
    cases hl : t.lookup p with
    | none => exact hInv
    | some a =>
      show WriterExcl (if a.close.is_free = true then OpenFileTable.mk (eraseKey t.map p)
        else OpenFileTable.mk (modifyKey t.map p OpenFileAttribute.close))
      by_cases hfree : a.close.is_free = true
      · rw [if_pos hfree]
        intro e he hw2
        exact hInv e ((eraseKey_sublist t.map p).subset he) hw2
      · rw [if_neg hfree]
        intro e he hw2
        rcases mem_modifyKey he with hel | ⟨v, hv, rfl⟩
        · exact hInv e hel hw2
        · have hva : v = a := by
            rw [show lookupKey t.map p = t.lookup p from rfl, hl] at hv
            injection hv with h1
            exact h1.symm
          subst hva
          have hvw : v.write = true := hw2
          have h1 : v.holders = 1 := hInv (p, v) (lookupKey_mem hv) hvw
          exact absurd (by simp [OpenFileAttribute.close, OpenFileAttribute.is_free, h1]) hfree
  · intro ttl now
    intro e he hw2
    exact hInv e (mem_foldl_eraseKey _ he) hw2

/-- Witness for C9 at concrete inputs: a first write-open of `a` on the
empty table yields a table satisfying the single-writer shape. -/
theorem writer_excl_inv_wit :
    WriterExcl ⟨[(pA, ⟨true, 5, 1⟩)]⟩ :=
  (writer_excl_inv OpenFileTable.new (by decide)).1 pA true 5 _ rfl

/-! ## C7: path parsing -/

/-- Counterexample to C7 as stated: parsing `a/ b` keeps the segment
`" b"`, whose trim differs from itself — a produced segment can carry
surrounding whitespace (only the whole input is trimmed; the individual
chunks are only tested, not rewritten, by `.filter(|s| !s.trim().is_empty())`). -/
theorem from_uri_untrimmed_segment :
    (PathSplit.from_uri "a/ b").segs = ["a", " b"]
    ∧ trimChars (" b".data) ≠ " b".data := by
  exact ⟨by decide, by decide⟩

/-- C7 (amended): parsing never fails (`from_uri` is total), splits on
`'/'` and drops every chunk that is empty or whitespace-only; every
segment of the result is non-empty and contains at least one
non-whitespace character — but it may carry surrounding whitespace. -/
theorem from_uri_segments (s : String) :
    ∀ seg ∈ (PathSplit.from_uri s).segs, seg ≠ "" ∧ trimChars seg.data ≠ [] := by
  intro seg hseg
  obtain ⟨cs, hcs, rfl⟩ := List.mem_map.mp hseg
  obtain ⟨_, hfil⟩ := List.mem_filter.mp hcs
  have hne : trimChars cs ≠ [] := by
    intro h0
    simp [h0, List.isEmpty] at hfil
  refine ⟨?_, hne⟩
  intro h0
  have hdata : cs = [] := congrArg String.data h0
  exact hne (by rw [hdata]; rfl)

/-- Witness for C7 at a concrete input: the first segment of `a/ b`. -/
theorem from_uri_segments_wit :
    "a" ≠ "" ∧ trimChars ("a".data) ≠ [] :=
  from_uri_segments "a/ b" "a" (by decide)

/-! ## C6: directory-name uniqueness -/

theorem nodupKeys_append_single {K V : Type} [DecidableEq K]
    {l : List (K × V)} {k : K} (v : V)
    (h : NodupKeys l) (hk : lookupKey l k = none) :
    NodupKeys (l ++ [(k, v)]) := by
  show ((l ++ [(k, v)]).map Prod.fst).Nodup
  rw [List.map_append]
  refine List.Nodup.append h (List.nodup_singleton k) ?_
  intro a ha hb
  rw [List.map_singleton, List.mem_singleton] at hb
  subst hb
  exact ((lookupKey_eq_none l a).mp hk) ha

theorem uniqueNames_createAux (rest : List String) :
    ∀ (c : String) (self t' : FsNode) (f : Unit → FsNode),
      self.UniqueNames → (f ()).UniqueNames →
      FsNode.createAux self c rest f = .ok t' → t'.UniqueNames := by
  induction rest with
  | nil =>
    intro c self t' f hself hf hok
    cases self with | mk attr body =>
    cases body with
    | file fl => exact absurd hok (by simp [FsNode.createAux])
    | directory d =>
      cases d with | mk dattr nodes =>
      cases hself with | directory _ _ _ hnodup hchildren =>
      by_cases hex : (lookupKey nodes c).isSome = true
      · rw [show FsNode.createAux (.mk attr (.directory (.mk dattr nodes))) c [] f =
            (if (lookupKey nodes c).isSome then .error (.fileExist ⟨⟨c, []⟩⟩)
             else .ok (.mk attr (.directory (.mk dattr (nodes ++ [(c, f ())])))))
            from rfl, if_pos hex] at hok
        exact Except.noConfusion hok
      · rw [show FsNode.createAux (.mk attr (.directory (.mk dattr nodes))) c [] f =
            (if (lookupKey nodes c).isSome then .error (.fileExist ⟨⟨c, []⟩⟩)
             else .ok (.mk attr (.directory (.mk dattr (nodes ++ [(c, f ())])))))
            from rfl, if_neg hex] at hok
        obtain ⟨rfl⟩ := hok
        have hnone : lookupKey nodes c = none := by
          cases hx : lookupKey nodes c with
          | none => rfl
          | some v => rw [hx] at hex; simp at hex
        refine FsNode.UniqueNames.directory _ _ _
          (nodupKeys_append_single _ hnodup hnone) ?_
        intro e he
        rcases List.mem_append.mp he with hel | hel
        · exact hchildren e hel
        · rw [List.mem_singleton] at hel
          subst hel
          exact hf
  | cons s r ih =>
    intro c self t' f hself hf hok
    cases self with | mk attr body =>
    cases body with
    | file fl => exact absurd hok (by simp [FsNode.createAux])
    | directory d =>
      cases d with | mk dattr nodes =>
      cases hself with | directory _ _ _ hnodup hchildren =>
      cases hlk : lookupKey nodes c with
      | none => simp [FsNode.createAux, hlk] at hok
      | some child =>
        simp only [FsNode.createAux, hlk] at hok
        cases hrec : FsNode.createAux child s r f with
        | error e => rw [hrec] at hok; exact Except.noConfusion hok
        | ok node' =>
          rw [hrec] at hok
          obtain ⟨rfl⟩ := hok
          have hchild : child.UniqueNames := hchildren (c, child) (lookupKey_mem hlk)
          have hnode' : node'.UniqueNames := ih s child node' f hchild hf hrec
          refine FsNode.UniqueNames.directory _ _ _ ?_ ?_
          · show NodupKeys (modifyKey nodes c fun _ => node')
            show ((modifyKey nodes c fun _ => node').map Prod.fst).Nodup
            rw [modifyKey_map_fst]
            exact hnodup
          · intro e he
            rcases mem_modifyKey he with hel | ⟨v, _, rfl⟩
            · exact hchildren e hel
            · exact hnode'

/-- Every successful `create_node` preserves the tree invariant, provided
the inserted node satisfies it. -/
theorem uniqueNames_create_node {self t' : FsNode} {path : PathCursor}
    {f : Unit → FsNode} (hself : self.UniqueNames) (hf : (f ()).UniqueNames)
    (hok : self.create_node path f = .ok t') : t'.UniqueNames :=
  uniqueNames_createAux path.rest path.curr self t' f hself hf hok

theorem uniqueNames_applyCreates (ops : List (PathCursor × FsNode)) :
    ∀ root : FsNode, root.UniqueNames → (∀ op ∈ ops, op.2.UniqueNames) →
      (applyCreates root ops).UniqueNames := by
  induction ops with
  | nil =>
    intro root hroot _
    exact hroot
  | cons op ops ih =>
    intro root hroot hops
    show (applyCreates (match root.create_node op.1 (fun _ => op.2) with
      | .ok t' => t'
      | .error _ => root) ops).UniqueNames
    apply ih
    · cases hc : root.create_node op.1 (fun _ => op.2) with
      | ok t' =>
        show t'.UniqueNames
        exact uniqueNames_create_node hroot (hops op (List.mem_cons_self _ _)) hc
      | error e =>
        show root.UniqueNames
        exact hroot
    · intro x hx
      exact hops x (List.mem_cons_of_mem _ hx)

/-- C6: inserting under a taken name fails, handing the rejected node back
in the error and leaving the directory as it was; insertion preserves
child-name uniqueness; and any sequence of `create_node` operations
(inserting nodes that themselves satisfy the invariant) keeps every
directory's child names unique. -/
theorem directory_unique_names :
    (∀ (d : Directory) (key : String) (node x : FsNode),
        lookupKey d.nodes key = some x →
        d.insert key node = (d, .error ⟨node⟩))
    ∧ (∀ (d : Directory) (key : String) (node : FsNode),
        NodupKeys d.nodes → NodupKeys (d.insert key node).1.nodes)
    ∧ (∀ (root : FsNode) (ops : List (PathCursor × FsNode)),
        root.UniqueNames → (∀ op ∈ ops, op.2.UniqueNames) →
        (applyCreates root ops).UniqueNames) := by
  refine ⟨?_, ?_, ?_⟩
  · intro d key node x hx
    unfold Directory.insert
    rw [if_pos (by rw [hx]; rfl)]
  · intro d key node hnodup
    unfold Directory.insert
    by_cases hex : (lookupKey d.nodes key).isSome = true
    · rw [if_pos hex]
      exact hnodup
    · rw [if_neg hex]
      have hnone : lookupKey d.nodes key = none := by
        cases hx : lookupKey d.nodes key with
        | none => rfl
        | some v => rw [hx] at hex; simp at hex
      exact nodupKeys_append_single _ hnodup hnone
  · intro root ops hroot hops
    exact uniqueNames_applyCreates ops root hroot hops

/-- Witness for C6 at concrete inputs: inserting a second child named `a`
into the directory that already has one is refused with the rejected node
returned, and a two-step create sequence from an empty root keeps the
invariant. -/
theorem directory_unique_names_wit :
    dirWithA.insert "a" emptyDirNode = (dirWithA, .error ⟨emptyDirNode⟩)
    ∧ (applyCreates emptyDirNode
        [(⟨"a", []⟩, emptyDirNode), (⟨"a", ["b"]⟩, fileNodeEmptyBlocks)]).UniqueNames :=
  ⟨directory_unique_names.1 dirWithA "a" emptyDirNode fileNodeEmptyBlocks rfl,
    directory_unique_names.2.2 emptyDirNode
      [(⟨"a", []⟩, emptyDirNode), (⟨"a", ["b"]⟩, fileNodeEmptyBlocks)]
      (FsNode.UniqueNames.directory _ _ _ (by decide) (by intro e he; cases he))
      (by
        intro op hop
        rcases List.mem_cons.mp hop with rfl | hop
        · exact FsNode.UniqueNames.directory _ _ _ (by decide) (by intro e he; cases he)
        · rcases List.mem_cons.mp hop with rfl | hop
          · exact FsNode.UniqueNames.file _ _
          · cases hop)⟩

/-! ## C10: write-open of an existing directory node -/

theorem getAux_ok_create_fileExist (rest : List String) :
    ∀ (c : String) (self node : FsNode) (f : Unit → FsNode),
      FsNode.getAux self c rest = .ok node →
      ∃ p, FsNode.createAux self c rest f = .error (.fileExist p) := by
  induction rest with
  | nil =>
    intro c self node f hok
    cases self with | mk attr body =>
    cases body with
    | file fl => exact absurd hok (by simp [FsNode.getAux])
    | directory d =>
      cases d with | mk dattr nodes =>
      cases hlk : lookupKey nodes c with
      | none => simp [FsNode.getAux, hlk] at hok
      | some n =>
        refine ⟨⟨c, []⟩, ?_⟩
        simp [FsNode.createAux, hlk]
  | cons s r ih =>
    intro c self node f hok
    cases self with | mk attr body =>
    cases body with
    | file fl => exact absurd hok (by simp [FsNode.getAux])
    | directory d =>
      cases d with | mk dattr nodes =>
      cases hlk : lookupKey nodes c with
      | none => simp [FsNode.getAux, hlk] at hok
      | some child =>
        simp only [FsNode.getAux, hlk] at hok
        obtain ⟨p, hp⟩ := ih s child node f hok
        refine ⟨p, ?_⟩
        simp [FsNode.createAux, hlk, hp]

/-- C10: an `Open{write: true}` request whose path resolves to an existing
directory node is not turned away at the namespace step: the
`FileExist` outcome of `create_node` is treated as success, the tree is
left unchanged, and the request proceeds to the open-file table's
exclusion check, whose verdict alone decides the response. -/
theorem open_write_existing_dir (h : Handler) (pathStr : String) (now : Nat)
    (fid sa : String) (pc : PathCursor) (node : FsNode) (d : Directory)
    (hpc : PathCursor.new (PathSplit.from_uri pathStr) = some pc)
    (hget : h.virt_fs.get (some pc) = .ok node)
    (hdir : node.body = .directory d) :
    ((h.handle_req (.openReq true pathStr) now fid sa).1.virt_fs = h.virt_fs)
    ∧ (∀ t', h.open_table.open' (PathSplit.from_uri pathStr) true now = .ok t' →
        h.handle_req (.openReq true pathStr) now fid sa =
          ({ h with open_table := t' }, .none))
    ∧ (∀ e, h.open_table.open' (PathSplit.from_uri pathStr) true now = .error e →
        h.handle_req (.openReq true pathStr) now fid sa = (h, .openResp)) := by
  obtain ⟨p, hp⟩ : ∃ p, h.virt_fs.create_node pc
      (fun _ => FsNode.mk ⟨⟩ (.file (File.new ⟨REPLICATION⟩))) =
        .error (.fileExist p) :=
    getAux_ok_create_fileExist pc.rest pc.curr h.virt_fs node _ hget
  have harm : h.handle_req (.openReq true pathStr) now fid sa =
      Handler.open_table_step h (PathSplit.from_uri pathStr) true now := by
    simp [Handler.handle_req, hpc, hp]
  refine ⟨?_, ?_, ?_⟩
  · rw [harm]
    unfold Handler.open_table_step
    cases ho : h.open_table.open' (PathSplit.from_uri pathStr) true now with
    | ok t' => simp only [ho]
    | error e => simp only [ho]
  · intro t' ho
    rw [harm]
    unfold Handler.open_table_step
    simp only [ho]
  · intro e ho
    rw [harm]
    unfold Handler.open_table_step
    simp only [ho]

/-- Witness for C10 at concrete inputs: write-opening the existing
directory `a` leaves the tree unchanged. -/
theorem open_write_existing_dir_wit :
    (hDir.handle_req (.openReq true "a") 0 "x" "y").1.virt_fs = hDir.virt_fs :=
  (open_write_existing_dir hDir "a" 0 "x" "y" ⟨"a", []⟩ emptyDirNode (.mk ⟨⟩ [])
    rfl rfl rfl).1

/-! ## C2: block-allocation contiguity -/

/-- Counterexample to C2 as stated: the source checks contiguity only
against an existing last block (`if let Some(last) = file.blocks.last()`);
for a file with no blocks and a requested range starting at 5 ≠ 0, the
request is not answered `Rejected` — it falls through to the allocation
path. -/
theorem alloc_first_block_unchecked :
    hAllocEmpty.virt_fs.get (PathCursor.new (PathSplit.from_uri "f")) =
      .ok fileNodeEmptyBlocks
    ∧ fileNodeEmptyBlocks.body = .file ⟨⟨3⟩, []⟩
    ∧ (5 : Nat) ≠ 0
    ∧ (hAllocEmpty.handle_req (.allocBlockReq "f" (5, 10)) 0 "b1" "s1").2 ≠
        Resp.allocBlockResp .rejected :=
  ⟨rfl, rfl, by decide, by decide⟩

/-- C2 (amended): when the path resolves to a file that already has at
least one block and the requested range's start differs from the last
block's end, the request is answered `Rejected` and the whole handler
state — tree, open-file table and replica map — is exactly as before.
(When the file has no blocks yet, the source performs no start-offset
check; see the counterexample.) -/
theorem alloc_noncontiguous_rejected (h : Handler) (pathStr : String)
    (off_range : Nat × Nat) (now : Nat) (fid sa : String)
    (node : FsNode) (file : File) (last : FileBlock)
    (hget : h.virt_fs.get (PathCursor.new (PathSplit.from_uri pathStr)) = .ok node)
    (hfile : node.body = .file file)
    (hlast : file.blocks.getLast? = some last)
    (hne : off_range.1 ≠ last.off_range.2) :
    h.handle_req (.allocBlockReq pathStr off_range) now fid sa =
      (h, .allocBlockResp .rejected) := by
  simp [Handler.handle_req, hget, hfile, hlast, hne]

/-- Witness for C2 at concrete inputs: with `f` holding `[0, 100)`,
requesting `[50, 150)` is rejected with the handler unchanged. -/
theorem alloc_noncontiguous_rejected_wit :
    hAllocOne.handle_req (.allocBlockReq "f" (50, 150)) 0 "b1" "s1" =
      (hAllocOne, .allocBlockResp .rejected) :=
  alloc_noncontiguous_rejected hAllocOne "f" (50, 150) 0 "b1" "s1"
    fileNodeOneBlock ⟨⟨3⟩, [⟨(0, 100), "b0"⟩]⟩ ⟨(0, 100), "b0"⟩ rfl rfl rfl
    (by decide)

end Dfs
